import Mathlib

/-!
# Verification of `VirtualTap.cpp` (libzt virtual Ethernet tap device)

A shallow embedding of the address-set, multicast-group-diff and
interface-state-monitor logic of `src/VirtualTap.cpp`, together with
theorems settling the specification's claims about them.

Modelling conventions:
* `InetAddress` and `MulticastGroup` are external value types (defined
  outside the fragment) carrying an implementation-defined total order
  and value equality; both are modelled as `Nat` with its linear order.
* `std::sort` is modelled by `List.insertionSort (· ≤ ·)` (for a total
  order on values the sorted permutation is unique, so any conforming
  sort agrees with it).
* The multicast-group derivation
  `MulticastGroup::deriveMulticastGroupForAddressResolution` is external
  code; per the spec it is an arbitrary deterministic function, passed
  as a parameter `derive : Nat → Nat`.
* Fallible / undefined-behavior paths return `Option` with `none`
  marking undefined behavior.
-/

namespace VirtualTap

/-! ## Address set (`_ips`): `addIp`, `removeIp`, `ips` -/

/-- `VirtualTap::addIp` (VirtualTap.cpp lines 142-152): registers the
address with the stack (external side effect, not modelled), then, if the
address is not already a member of `_ips`, pushes it back and re-sorts.
Always returns `true`. -/
def addIp (ips : List Nat) (ip : Nat) : List Nat × Bool :=
  (if ip ∈ ips then ips else List.insertionSort (· ≤ ·) (ips ++ [ip]), true)

/-- `VirtualTap::removeIp` (VirtualTap.cpp lines 154-169): locates the
address via `std::find`; the not-found guard is commented out in the
source, so when the address is absent the code calls `_ips.erase(end())`,
which is undefined behavior (modelled as `none`).  When present, the
first occurrence is erased and `true` is returned. -/
def removeIp (ips : List Nat) (ip : Nat) : Option (List Nat × Bool) :=
  if ip ∈ ips then some (ips.erase ip, true) else none

/-- One address-set operation: a call to `addIp` or `removeIp`. -/
inductive AddrOp where
  | add (ip : Nat)
  | remove (ip : Nat)
deriving DecidableEq

/-- Apply one operation to the `_ips` state; `none` once undefined
behavior has been invoked. -/
def applyOp (s : List Nat) : AddrOp → Option (List Nat)
  | .add ip => some (addIp s ip).1
  | .remove ip => (removeIp s ip).map (·.1)

/-- Run a sequence of `addIp`/`removeIp` calls starting from the empty
address set (the state at construction).  The snapshot returned by
`VirtualTap::ips()` is a copy of this state. -/
def runOps (ops : List AddrOp) : Option (List Nat) :=
  ops.foldl (fun acc op => acc.bind (fun s => applyOp s op)) (some [])

end VirtualTap

namespace VirtualTap

/-! ## Invariant lemmas for the address set -/

theorem addIp_fst_invariant {s : List Nat} (hs : List.Sorted (· ≤ ·) s)
    (hn : s.Nodup) (ip : Nat) :
    List.Sorted (· ≤ ·) (addIp s ip).1 ∧ (addIp s ip).1.Nodup := by
  by_cases h : ip ∈ s
  · simpa [addIp, h] using ⟨hs, hn⟩
  · refine ⟨?_, ?_⟩
    · simpa [addIp, h] using List.sorted_insertionSort (· ≤ ·) (s ++ [ip])
    · have hperm := List.perm_insertionSort (· ≤ ·) (s ++ [ip])
      have happ : (s ++ [ip]).Nodup := by
        simp [List.nodup_append, hn, h]
      simpa [addIp, h] using hperm.nodup_iff.mpr happ

theorem removeIp_fst_invariant {s s' : List Nat} {b : Bool}
    (hs : List.Sorted (· ≤ ·) s) (hn : s.Nodup) {ip : Nat}
    (h : removeIp s ip = some (s', b)) :
    List.Sorted (· ≤ ·) s' ∧ s'.Nodup := by
  by_cases hm : ip ∈ s
  · simp only [removeIp, if_pos hm, Option.some.injEq, Prod.mk.injEq] at h
    obtain ⟨rfl, -⟩ := h
    exact ⟨hs.sublist (s.erase_sublist ip), hn.sublist (s.erase_sublist ip)⟩
  · simp [removeIp, hm] at h

theorem applyOp_invariant {s s' : List Nat} (hs : List.Sorted (· ≤ ·) s)
    (hn : s.Nodup) {op : AddrOp} (h : applyOp s op = some s') :
    List.Sorted (· ≤ ·) s' ∧ s'.Nodup := by
  cases op with
  | add ip =>
    simp only [applyOp, Option.some.injEq] at h
    subst h
    exact addIp_fst_invariant hs hn ip
  | remove ip =>
    simp only [applyOp, Option.map_eq_some'] at h
    obtain ⟨⟨t, b⟩, hrem, rfl⟩ := h
    exact removeIp_fst_invariant hs hn hrem

theorem foldl_bind_none (ops : List AddrOp) :
    ops.foldl (fun acc op => acc.bind (fun s => applyOp s op)) none = none := by
  induction ops with
  | nil => rfl
  | cons op ops ih =>
    rw [List.foldl_cons, Option.none_bind]
    exact ih

theorem runOps_invariant_aux :
    ∀ (ops : List AddrOp) (s₀ : List Nat), List.Sorted (· ≤ ·) s₀ → s₀.Nodup →
      ∀ s, ops.foldl (fun acc op => acc.bind (fun t => applyOp t op)) (some s₀) = some s →
        List.Sorted (· ≤ ·) s ∧ s.Nodup := by
  intro ops
  induction ops with
  | nil =>
    intro s₀ hs hn s h
    simp only [List.foldl_nil, Option.some.injEq] at h
    subst h
    exact ⟨hs, hn⟩
  | cons op ops ih =>
    intro s₀ hs hn s h
    rw [List.foldl_cons] at h
    rcases hstep : (some s₀).bind (fun t => applyOp t op) with _ | s₁
    · rw [hstep, foldl_bind_none] at h
      exact absurd h (by simp)
    · rw [hstep] at h
      rw [Option.some_bind] at hstep
      obtain ⟨hs₁, hn₁⟩ := applyOp_invariant hs hn hstep
      exact ih s₁ hs₁ hn₁ s h

/-! ## Multicast group scan (`VirtualTap::scanMulticastGroups`) -/

/-- The loop body of `std::lower_bound` on a random-access range:
`first`/`count` evolve exactly as in the standard algorithm
(`step = count / 2`; probe `get (first + step)`; halve).  `count`
strictly decreases each iteration, so `fuel ≥ count` iterations always
suffice; the explicit fuel only makes the recursion structural. -/
def lowerBoundGo (get : Nat → Nat) (v : Nat) : Nat → Nat → Nat → Nat
  | 0, first, _ => first
  | fuel + 1, first, count =>
    if count = 0 then first
    else
      let step := count / 2
      if get (first + step) < v then
        lowerBoundGo get v fuel (first + step + 1) (count - (step + 1))
      else
        lowerBoundGo get v fuel first step

/-- `std::binary_search(l.begin(), l.end(), v)`:
`first = lower_bound(...)`; `first != last && !(v < *first)`. -/
def binarySearch (l : List Nat) (v : Nat) : Bool :=
  let n := l.length
  let i := lowerBoundGo (fun j => l.getD j 0) v n 0 n
  decide (i < n) && !decide (v < l.getD i 0)

/-- The in-place compaction loop of `std::unique`: `y` is compared with
the last kept element `prev`; equal elements are skipped, others are
kept and become the new `prev`. -/
def cupGo : Nat → List Nat → List Nat
  | _, [] => []
  | prev, y :: ys => if y = prev then cupGo prev ys else y :: cupGo y ys

/-- The unique prefix `[begin, ret)` that `std::unique` compacts to the
front of the range (`ret` being its returned iterator). -/
def cup : List Nat → List Nat
  | [] => []
  | x :: xs => x :: cupGo x xs

/-- The whole vector after `std::unique(v.begin(), v.end())` when — as in
`scanMulticastGroups` — the returned iterator is DISCARDED and no erase
follows: the compacted unique prefix, then the untouched tail of the
original elements (positions from the prefix length onward are never
written by the compaction loop). -/
def buggyUnique (s : List Nat) : List Nat :=
  cup s ++ s.drop (cup s).length

/-- Result of one `scanMulticastGroups` call: the final contents of the
caller's `added` and `removed` vectors and the new `_multicastGroups`. -/
structure ScanResult where
  added : List Nat
  removed : List Nat
  stored : List Nat
deriving DecidableEq

/-- `VirtualTap::scanMulticastGroups` (VirtualTap.cpp lines 206-228).
`derive` is `MulticastGroup::deriveMulticastGroupForAddressResolution`
(external, deterministic), `allIps` the `ips()` snapshot, `stored` the
previous `_multicastGroups`, and `added₀`/`removed₀` the caller-supplied
output vectors as passed in (the code only ever `push_back`s onto them).
Steps: derive one group per address, `std::sort`, `std::unique` with the
returned iterator discarded, then classify via `std::binary_search`
against the other set, and finally `swap` the stored set. -/
def scanMulticastGroups (derive : Nat → Nat) (allIps stored added₀ removed₀ :
    List Nat) : ScanResult :=
  let newGroups := buggyUnique (List.insertionSort (· ≤ ·) (allIps.map derive))
  { added := added₀ ++ newGroups.filter (fun m => !binarySearch stored m),
    removed := removed₀ ++ stored.filter (fun m => !binarySearch newGroups m),
    stored := newGroups }

/-! ## Landing invariant of the bisection

`lower_bound` maintains, on ANY array (sorted or not): the element just
before the window is `< v` and the element just past the window is
`≥ v`; hence the landing index `i` satisfies `get (i-1) < v` (when
`i > 0`) and `v ≤ get i` (when `i` is in range). -/

theorem lowerBoundGo_spec (get : Nat → Nat) (v : Nat) :
    ∀ (fuel count first : Nat), count ≤ fuel →
      (first ≤ lowerBoundGo get v fuel first count ∧
        lowerBoundGo get v fuel first count ≤ first + count) ∧
      (first < lowerBoundGo get v fuel first count →
        get (lowerBoundGo get v fuel first count - 1) < v) ∧
      (lowerBoundGo get v fuel first count < first + count →
        v ≤ get (lowerBoundGo get v fuel first count)) := by
  intro fuel
  induction fuel with
  | zero =>
    intro count first hcf
    interval_cases count
    simp [lowerBoundGo]
  | succ fuel ih =>
    intro count first hcf
    by_cases hc : count = 0
    · subst hc
      simp [lowerBoundGo]
    · have hcpos : 0 < count := Nat.pos_of_ne_zero hc
      have hstep : count / 2 < count := Nat.div_lt_self hcpos (by norm_num)
      by_cases hprobe : get (first + count / 2) < v
      · have hrec : lowerBoundGo get v (fuel + 1) first count =
            lowerBoundGo get v fuel (first + count / 2 + 1)
              (count - (count / 2 + 1)) := by
          simp [lowerBoundGo, hc, hprobe]
        obtain ⟨⟨hlo, hhi⟩, hleft, hright⟩ :=
          ih (count - (count / 2 + 1)) (first + count / 2 + 1) (by omega)
        rw [hrec]
        refine ⟨⟨by omega, by omega⟩, ?_, ?_⟩
        · intro hlt
          by_cases heq :
            lowerBoundGo get v fuel (first + count / 2 + 1)
              (count - (count / 2 + 1)) = first + count / 2 + 1
          · rw [heq]
            simpa using hprobe
          · exact hleft (by omega)
        · intro hlt
          exact hright (by omega)
      · have hrec : lowerBoundGo get v (fuel + 1) first count =
            lowerBoundGo get v fuel first (count / 2) := by
          simp [lowerBoundGo, hc, hprobe]
        obtain ⟨⟨hlo, hhi⟩, hleft, hright⟩ :=
          ih (count / 2) first (by omega)
        rw [hrec]
        refine ⟨⟨by omega, by omega⟩, hleft, ?_⟩
        · intro _
          by_cases heq :
            lowerBoundGo get v fuel first (count / 2) = first + count / 2
          · rw [heq]
            omega
          · exact hright (by omega)

/-! ## Structure of the vector left behind by the discarded `std::unique` -/

theorem mem_of_mem_cupGo {v : Nat} :
    ∀ (l : List Nat) (prev : Nat), v ∈ cupGo prev l → v ∈ l := by
  intro l
  induction l with
  | nil => intro prev h; simp [cupGo] at h
  | cons y ys ih =>
    intro prev h
    by_cases hy : y = prev
    · simp only [cupGo, if_pos hy] at h
      exact List.mem_cons_of_mem y (ih prev h)
    · simp only [cupGo, if_neg hy, List.mem_cons] at h
      rcases h with h | h
      · exact h ▸ List.mem_cons_self y ys
      · exact List.mem_cons_of_mem y (ih y h)

theorem mem_cupGo_of_mem {v : Nat} :
    ∀ (l : List Nat) (prev : Nat), v ∈ l → v = prev ∨ v ∈ cupGo prev l := by
  intro l
  induction l with
  | nil => intro prev h; simp at h
  | cons y ys ih =>
    intro prev h
    rcases List.mem_cons.mp h with rfl | h
    · by_cases hy : v = prev
      · exact Or.inl hy
      · simp [cupGo, hy]
    · by_cases hy : y = prev
      · subst hy
        simpa [cupGo] using ih y h
      · rcases ih y h with rfl | h
        · simp [cupGo, hy]
        · simp [cupGo, hy, h]

theorem mem_of_mem_cup {v : Nat} {s : List Nat} (h : v ∈ cup s) : v ∈ s := by
  cases s with
  | nil => simp [cup] at h
  | cons x xs =>
    rcases List.mem_cons.mp h with rfl | h
    · exact List.mem_cons_self _ _
    · exact List.mem_cons_of_mem x (mem_of_mem_cupGo xs x h)

theorem mem_cup_of_mem {v : Nat} {s : List Nat} (h : v ∈ s) : v ∈ cup s := by
  cases s with
  | nil => simp at h
  | cons x xs =>
    rcases List.mem_cons.mp h with rfl | h
    · exact List.mem_cons_self v (cupGo v xs)
    · rcases mem_cupGo_of_mem xs x h with rfl | h
      · exact List.mem_cons_self v (cupGo v xs)
      · exact List.mem_cons_of_mem x h

theorem sorted_lt_cupGo :
    ∀ (l : List Nat) (prev : Nat), List.Sorted (· ≤ ·) (prev :: l) →
      List.Sorted (· < ·) (prev :: cupGo prev l) := by
  intro l
  induction l with
  | nil => intro prev _; simp [cupGo]
  | cons y ys ih =>
    intro prev h
    obtain ⟨h1, h2⟩ := List.sorted_cons.mp h
    by_cases hy : y = prev
    · rw [cupGo, if_pos hy]
      refine ih prev (List.sorted_cons.mpr ⟨?_, (List.sorted_cons.mp h2).2⟩)
      intro b hb
      exact h1 b (List.mem_cons_of_mem y hb)
    · rw [cupGo, if_neg hy]
      have hprevy : prev < y :=
        lt_of_le_of_ne (h1 y (List.mem_cons_self y ys)) (Ne.symm hy)
      refine List.sorted_cons.mpr ⟨?_, ih y h2⟩
      intro b hb
      rcases List.mem_cons.mp hb with rfl | hb
      · exact hprevy
      · exact lt_of_lt_of_le hprevy
          ((List.sorted_cons.mp h2).1 b (mem_of_mem_cupGo ys y hb))

theorem sorted_lt_cup {s : List Nat} (hs : List.Sorted (· ≤ ·) s) :
    List.Sorted (· < ·) (cup s) := by
  cases s with
  | nil => simp [cup]
  | cons x xs => exact sorted_lt_cupGo xs x hs

theorem cupGo_length_le :
    ∀ (l : List Nat) (prev : Nat), (cupGo prev l).length ≤ l.length := by
  intro l
  induction l with
  | nil => intro prev; simp [cupGo]
  | cons y ys ih =>
    intro prev
    by_cases hy : y = prev
    · rw [cupGo, if_pos hy]
      exact Nat.le_succ_of_le (ih prev)
    · rw [cupGo, if_neg hy]
      simpa using ih y

theorem cup_length_le (s : List Nat) : (cup s).length ≤ s.length := by
  cases s with
  | nil => simp [cup]
  | cons x xs => simpa [cup] using cupGo_length_le xs x

theorem buggyUnique_length (s : List Nat) :
    (buggyUnique s).length = s.length := by
  have := cup_length_le s
  simp only [buggyUnique, List.length_append, List.length_drop]
  omega

theorem mem_of_mem_buggyUnique {v : Nat} {s : List Nat}
    (h : v ∈ buggyUnique s) : v ∈ s := by
  rcases List.mem_append.mp h with h | h
  · exact mem_of_mem_cup h
  · exact List.mem_of_mem_drop h

theorem sorted_le_getElem_mono {l : List Nat} (h : List.Sorted (· ≤ ·) l)
    {i j : Nat} (hij : i ≤ j) (hj : j < l.length) :
    l.get ⟨i, lt_of_le_of_lt hij hj⟩ ≤ l.get ⟨j, hj⟩ := by
  rcases eq_or_lt_of_le hij with rfl | hlt
  · exact le_refl _
  · exact List.pairwise_iff_getElem.mp h i j _ hj hlt

theorem sorted_lt_getElem_mono {l : List Nat} (h : List.Sorted (· < ·) l)
    {i j : Nat} (hij : i ≤ j) (hj : j < l.length) :
    l.get ⟨i, lt_of_le_of_lt hij hj⟩ ≤ l.get ⟨j, hj⟩ := by
  rcases eq_or_lt_of_le hij with rfl | hlt
  · exact le_refl _
  · exact le_of_lt (List.pairwise_iff_getElem.mp h i j _ hj hlt)

/-- The first element of the post-`std::unique` vector is a lower bound
of every element of the original sorted vector. -/
theorem buggyUnique_getD_zero_le {s : List Nat}
    (_ : List.Sorted (· ≤ ·) s) {v : Nat} (hv : v ∈ s) :
    (buggyUnique s).getD 0 0 ≤ v := by
  cases s with
  | nil => simp at hv
  | cons x xs =>
    have hx : (buggyUnique (x :: xs)).getD 0 0 = x := by
      simp [buggyUnique, cup]
    rw [hx]
    rcases List.mem_cons.mp hv with rfl | hv
    · exact le_refl _
    · exact (List.sorted_cons.mp (by assumption)).1 v hv

/-- Read a list element through `getD`, dropping below a `drop`. -/
theorem getD_drop_add (l : List Nat) (k j : Nat) (h : k + j < l.length) :
    (l.drop k).getD j 0 = l.getD (k + j) 0 := by
  rw [List.getD_eq_getElem _ _ (by simp; omega), List.getD_eq_getElem _ _ h,
    List.getElem_drop l]

theorem sorted_le_getD_mono {l : List Nat} (h : List.Sorted (· ≤ ·) l)
    {i j : Nat} (hij : i ≤ j) (hj : j < l.length) :
    l.getD i 0 ≤ l.getD j 0 := by
  rw [List.getD_eq_getElem _ _ (by omega), List.getD_eq_getElem _ _ hj]
  exact sorted_le_getElem_mono h hij hj

theorem sorted_lt_getD_mono {l : List Nat} (h : List.Sorted (· < ·) l)
    {i j : Nat} (hij : i ≤ j) (hj : j < l.length) :
    l.getD i 0 ≤ l.getD j 0 := by
  rw [List.getD_eq_getElem _ _ (by omega), List.getD_eq_getElem _ _ hj]
  exact sorted_lt_getElem_mono h hij hj

theorem getD_of_mem {v : Nat} {l : List Nat} (h : v ∈ l) :
    ∃ m, m < l.length ∧ l.getD m 0 = v := by
  obtain ⟨m, hm, he⟩ := List.getElem_of_mem h
  exact ⟨m, hm, by rw [List.getD_eq_getElem _ _ hm, he]⟩

/-- The last element of the post-`std::unique` vector is an upper bound
of every element of the original sorted vector. -/
theorem le_buggyUnique_getD_last {s : List Nat}
    (hs : List.Sorted (· ≤ ·) s) {v : Nat} (hv : v ∈ s) :
    v ≤ (buggyUnique s).getD ((buggyUnique s).length - 1) 0 := by
  have hn : (buggyUnique s).length = s.length := buggyUnique_length s
  have hspos : 0 < s.length := List.length_pos.mpr (by rintro rfl; simp at hv)
  have hk := cup_length_le s
  rw [hn]
  obtain ⟨m, hm, hmv⟩ := getD_of_mem hv
  by_cases hkn : (cup s).length < s.length
  · -- the last element lies in the untouched tail, which ends with the max
    simp only [buggyUnique]
    rw [List.getD_append_right _ _ _ _ (by omega),
      getD_drop_add s _ _ (by omega),
      (by omega : (cup s).length + (s.length - 1 - (cup s).length) = s.length - 1),
      ← hmv]
    exact sorted_le_getD_mono hs (by omega) (by omega)
  · -- no duplicates were skipped: the whole vector is the unique head
    have hkeq : (cup s).length = s.length := by omega
    obtain ⟨m2, hm2, hmv2⟩ := getD_of_mem (mem_cup_of_mem hv)
    simp only [buggyUnique]
    rw [List.getD_append _ _ _ _ (by omega), ← hmv2]
    exact sorted_lt_getD_mono (sorted_lt_cup hs) (by omega) (by omega)

/-- No adjacent pair of the post-`std::unique` vector strictly brackets a
value of the original sorted vector: in the unique head consecutive
elements are consecutive distinct values, the head ends with the maximum,
and in the untouched tail consecutive elements are adjacent in the
original sorted vector. -/
theorem buggyUnique_no_bracket {s : List Nat}
    (hs : List.Sorted (· ≤ ·) s) {v : Nat} (hv : v ∈ s) {j : Nat}
    (hj : j + 1 < (buggyUnique s).length) :
    ¬((buggyUnique s).getD j 0 < v ∧ v < (buggyUnique s).getD (j + 1) 0) := by
  rintro ⟨hlo, hhi⟩
  have hn : (buggyUnique s).length = s.length := buggyUnique_length s
  have hk := cup_length_le s
  rcases lt_trichotomy (j + 1) (cup s).length with hc | hc | hc
  · -- both elements in the strictly sorted unique head
    simp only [buggyUnique] at hlo hhi
    rw [List.getD_append _ _ _ _ (by omega)] at hlo
    rw [List.getD_append _ _ _ _ (by omega)] at hhi
    obtain ⟨m, hm, hmv⟩ := getD_of_mem (mem_cup_of_mem hv)
    rw [← hmv] at hlo hhi
    have h1 : j < m := by
      by_contra hle
      exact absurd (sorted_lt_getD_mono (sorted_lt_cup hs)
        (not_lt.mp hle) (by omega)) (by omega)
    have h2 : m < j + 1 := by
      by_contra hle
      exact absurd (sorted_lt_getD_mono (sorted_lt_cup hs)
        (not_lt.mp hle) (by omega)) (by omega)
    omega
  · -- the left element is the last of the unique head, i.e. the maximum
    simp only [buggyUnique] at hlo
    rw [List.getD_append _ _ _ _ (by omega)] at hlo
    obtain ⟨m, hm, hmv⟩ := getD_of_mem (mem_cup_of_mem hv)
    rw [← hmv] at hlo
    exact absurd (sorted_lt_getD_mono (sorted_lt_cup hs)
      (by omega : m ≤ j) (by omega)) (by omega)
  · -- both elements in the untouched tail: adjacent in the sorted original
    simp only [buggyUnique] at hlo hhi
    rw [List.getD_append_right _ _ _ _ (by omega),
      getD_drop_add s _ _ (by omega),
      (by omega : (cup s).length + (j - (cup s).length) = j)] at hlo
    rw [List.getD_append_right _ _ _ _ (by omega),
      getD_drop_add s _ _ (by omega),
      (by omega : (cup s).length + (j + 1 - (cup s).length) = j + 1)] at hhi
    obtain ⟨m, hm, hmv⟩ := getD_of_mem hv
    rw [← hmv] at hlo hhi
    have h1 : j < m := by
      by_contra hle
      exact absurd (sorted_le_getD_mono hs (not_lt.mp hle) (by omega)) (by omega)
    have h2 : m < j + 1 := by
      by_contra hle
      exact absurd (sorted_le_getD_mono hs (not_lt.mp hle) (by omega)) (by omega)
    omega

/-- `std::binary_search` finds every member of the vector that
`std::unique` (with its result discarded) leaves behind, even though
that vector need not be sorted: the bisection always lands on an
adjacent bracket, and such vectors never strictly bracket a member. -/
theorem binarySearch_complete_buggyUnique {s : List Nat}
    (hs : List.Sorted (· ≤ ·) s) {v : Nat} (hv : v ∈ buggyUnique s) :
    binarySearch (buggyUnique s) v = true := by
  have hvs : v ∈ s := mem_of_mem_buggyUnique hv
  set A := buggyUnique s with hA
  obtain ⟨⟨h0i, hin⟩, hleft, hright⟩ :=
    lowerBoundGo_spec (fun j => A.getD j 0) v A.length A.length 0 (le_refl _)
  set i := lowerBoundGo (fun j => A.getD j 0) v A.length 0 A.length with hi
  simp only [Nat.zero_add] at hin hright
  have hnpos : 0 < A.length := by
    rw [hA, buggyUnique_length]
    exact List.length_pos.mpr (by rintro rfl; simp at hvs)
  have hbs : binarySearch A v =
      (decide (i < A.length) && !decide (v < A.getD i 0)) := rfl
  rcases eq_or_lt_of_le hin with heq | hlt
  · -- the landing index is one past the end: contradicts maximality
    exfalso
    have h1 : A.getD (i - 1) 0 < v := hleft (by omega)
    have h2 : v ≤ A.getD (A.length - 1) 0 := le_buggyUnique_getD_last hs hvs
    rw [heq] at h1
    omega
  · -- the landing index is in range, and v ≤ A[i]
    have hvle : v ≤ A.getD i 0 := hright hlt
    rcases eq_or_lt_of_le hvle with heqv | hltv
    · rw [hbs, ← heqv]
      simp [hlt]
    · exfalso
      rcases Nat.eq_zero_or_pos i with hzero | hipos
      · have h0 : A.getD 0 0 ≤ v := buggyUnique_getD_zero_le hs hvs
        rw [hzero] at hltv
        omega
      · have hbr : ¬(A.getD (i - 1) 0 < v ∧ v < A.getD ((i - 1) + 1) 0) :=
          buggyUnique_no_bracket hs hvs (by rw [← hA]; omega)
        have hl : A.getD (i - 1) 0 < v := hleft (by omega)
        rw [(by omega : (i - 1) + 1 = i)] at hbr
        exact hbr ⟨hl, hltv⟩

/-! ## Destructor effect trace (`VirtualTap::~VirtualTap`) -/

/-- The externally visible effects of the destructor, one constructor per
side-effecting statement of VirtualTap.cpp lines 89-96. -/
inductive DtorAction where
  | postNetworkDownEvent   -- postEvent(_nwid, ZTS_EVENT_NETWORK_DOWN)
  | setRunFalse            -- _run = false
  | writeShutdownByte      -- write(_shutdownSignalPipe[1], "\x00", 1)
  | phyWhack               -- _phy.whack()
  | disposeNetifs          -- lwip_dispose_of_netifs(this)
  | joinThread             -- Thread::join(_thread)
  | closeShutdownPipeRead  -- close(_shutdownSignalPipe[0])
  | closeShutdownPipeWrite -- close(_shutdownSignalPipe[1])
deriving DecidableEq

/-- The destructor body as the ordered list of its effects, statement by
statement (VirtualTap.cpp lines 87-97). -/
def virtualTapDestructorEffects : List DtorAction :=
  [DtorAction.postNetworkDownEvent,
   DtorAction.setRunFalse,
   DtorAction.writeShutdownByte,
   DtorAction.phyWhack,
   DtorAction.disposeNetifs,
   DtorAction.joinThread,
   DtorAction.closeShutdownPipeRead,
   DtorAction.closeShutdownPipeWrite]

/-! ## Interface state monitor
(`VirtualTap::recognizeLowerLevelInterfaceStateChange`) -/

/-- Event codes returned by the monitor (from libzt.h, external to the
fragment; only their distinctness matters here). -/
inductive ZtsEvent where
  | eventNone
  | netifUpIp4
  | netifDownIp4
  | netifUpIp6
  | netifDownIp6
deriving DecidableEq

/-- The monitor state: the two interface handle slots (pointers modelled
as `Nat`, null = 0) and the two "was up last check" flags. -/
structure MonitorState where
  netif4 : Nat
  netif6 : Nat
  netif4WasUpLastCheck : Bool
  netif6WasUpLastCheck : Bool
deriving DecidableEq

/-- `VirtualTap::recognizeLowerLevelInterfaceStateChange` (VirtualTap.cpp
lines 99-125).  `isNetifUp` is the external `lwip_is_netif_up` probe for
this poll; `n` is the handle argument.  The early returns of the C++
are flattened into a cascade of mutually ordered conditions: inside the
`n == netif4` block the down-check precedes the up-check, and when the
`netif4` block returns nothing control falls through to the `netif6`
block. -/
def recognizeLowerLevelInterfaceStateChange (isNetifUp : Nat → Bool)
    (n : Nat) (s : MonitorState) : ZtsEvent × MonitorState :=
  if n = 0 then (ZtsEvent.eventNone, s)
  else if n = s.netif4 ∧ s.netif4WasUpLastCheck = true ∧ isNetifUp s.netif4 = false then
    (ZtsEvent.netifDownIp4, { s with netif4WasUpLastCheck := false })
  else if n = s.netif4 ∧ s.netif4WasUpLastCheck = false ∧ isNetifUp s.netif4 = true then
    (ZtsEvent.netifUpIp4, { s with netif4WasUpLastCheck := true })
  else if n = s.netif6 ∧ s.netif6WasUpLastCheck = true ∧ isNetifUp s.netif6 = false then
    (ZtsEvent.netifDownIp6, { s with netif6WasUpLastCheck := false })
  else if n = s.netif6 ∧ s.netif6WasUpLastCheck = false ∧ isNetifUp s.netif6 = true then
    (ZtsEvent.netifUpIp6, { s with netif6WasUpLastCheck := true })
  else (ZtsEvent.eventNone, s)

/-- Poll the monitor once per entry of `queries`, the k-th entry giving
the liveness answer of the stack for that poll; returns the events in
order. -/
def pollSequence (n : Nat) (s : MonitorState) : List Bool → List ZtsEvent
  | [] => []
  | q :: qs =>
    let r := recognizeLowerLevelInterfaceStateChange (fun _ => q) n s
    r.1 :: pollSequence n r.2 qs

/-! ## Theorems: claims C1, C7 -/

/-- C1: evaluating `removeIp` at an absent address — here the empty
address set and address `5` — reaches the erased-the-`end()`-iterator
path, i.e. undefined behavior (`none`); the code does NOT leave the set
unchanged and return a failure indicator as the spec requires. -/
theorem removeIp_absent_is_undefined :
    removeIp ([] : List Nat) 5 = none ∧ removeIp [1, 3] 2 = none := by
  constructor <;> rfl

/-- C7: for every address-set state and every address `x`, `addIp x`
followed immediately by `addIp x` leaves the set size unchanged, and
every `addIp` call returns success. -/
theorem addIp_idempotent_and_total (ips : List Nat) (x : Nat) :
    (addIp (addIp ips x).1 x).1.length = (addIp ips x).1.length ∧
      (addIp ips x).2 = true ∧ (addIp (addIp ips x).1 x).2 = true := by
  refine ⟨?_, rfl, rfl⟩
  have hmem : ∀ l : List Nat, x ∈ l → (addIp l x).1 = l := by
    intro l h
    simp [addIp, h]
  have hx : x ∈ (addIp ips x).1 := by
    by_cases h : x ∈ ips
    · simp [addIp, h]
    · simp [addIp, h]
  rw [hmem _ hx]

/-- C6 counterexample: the claim quantifies over EVERY sequence of
`addIp`/`removeIp` calls, but calling `removeIp 0` on the empty starting
set erases the `end()` iterator — undefined behavior — so no sorted,
duplicate-free snapshot results from that sequence. -/
theorem runOps_remove_absent_no_snapshot :
    ¬ ∃ s, runOps [AddrOp.remove 0] = some s ∧
      List.Sorted (· ≤ ·) s ∧ s.Nodup := by
  rintro ⟨s, h, -⟩
  simp [runOps, applyOp, removeIp] at h

/-- C6 (amended): for every sequence of `addIp`/`removeIp` calls starting
from the empty set whose behavior is defined (every removed address is
present when removed), the snapshot returned by `ips()` is sorted in
ascending order and contains no duplicates. -/
theorem runOps_sorted_nodup (ops : List AddrOp) (s : List Nat)
    (h : runOps ops = some s) :
    List.Sorted (· ≤ ·) s ∧ s.Nodup :=
  runOps_invariant_aux ops [] (by simp) (by simp) s h

/-- Witness for `runOps_sorted_nodup` at a concrete defined run. -/
theorem runOps_sorted_nodup_witness :
    List.Sorted (· ≤ ·) [3] ∧ List.Nodup [3] :=
  runOps_sorted_nodup
    [AddrOp.add 5, AddrOp.add 3, AddrOp.add 5, AddrOp.remove 5] [3]
    (by decide)

/-- C5: the destructor performs its effects in exactly the order:
post the network-down lifecycle event, set `_run = false`, write one byte
to the shutdown pipe, `whack` the phy, dispose the stack netifs, join the
monitor thread, then close both pipe descriptors. -/
theorem destructor_effect_order :
    virtualTapDestructorEffects =
      [DtorAction.postNetworkDownEvent,
       DtorAction.setRunFalse,
       DtorAction.writeShutdownByte,
       DtorAction.phyWhack,
       DtorAction.disposeNetifs,
       DtorAction.joinThread,
       DtorAction.closeShutdownPipeRead,
       DtorAction.closeShutdownPipeWrite] := rfl

/-- C4: the monitor is edge-triggered.  For the recognized IPv4 handle
whose stored flag is "up", feeding the live-up query sequence
`(up, up, down, down, up)` yields
`(None, None, DownIp4, None, UpIp4)`; moreover an immediately repeated
poll with any unchanged liveness answer returns `None` (a transition is
reported at most once per flip). -/
theorem recognize_edge_triggered (s : MonitorState) (live : Nat → Bool)
    (h0 : s.netif4 ≠ 0) (h46 : s.netif4 ≠ s.netif6)
    (hup : s.netif4WasUpLastCheck = true) :
    pollSequence s.netif4 s [true, true, false, false, true] =
      [ZtsEvent.eventNone, ZtsEvent.eventNone, ZtsEvent.netifDownIp4,
       ZtsEvent.eventNone, ZtsEvent.netifUpIp4] ∧
    (recognizeLowerLevelInterfaceStateChange live s.netif4
        (recognizeLowerLevelInterfaceStateChange live s.netif4 s).2).1 =
      ZtsEvent.eventNone := by
  constructor
  · simp [pollSequence, recognizeLowerLevelInterfaceStateChange, h0, h46, hup]
  · rcases hlive : live s.netif4 with _ | _ <;>
      simp [recognizeLowerLevelInterfaceStateChange, h0, h46, hup, hlive]

/-- Witness for `recognize_edge_triggered` at a concrete monitor state. -/
theorem recognize_edge_triggered_witness :
    pollSequence 1 ⟨1, 2, true, false⟩ [true, true, false, false, true] =
      [ZtsEvent.eventNone, ZtsEvent.eventNone, ZtsEvent.netifDownIp4,
       ZtsEvent.eventNone, ZtsEvent.netifUpIp4] ∧
    (recognizeLowerLevelInterfaceStateChange (fun _ => false) 1
        (recognizeLowerLevelInterfaceStateChange (fun _ => false) 1
          ⟨1, 2, true, false⟩).2).1 = ZtsEvent.eventNone :=
  recognize_edge_triggered ⟨1, 2, true, false⟩ (fun _ => false)
    (by decide) (by decide) (by decide)

/-- C9: a null handle, or any handle matching neither interface slot,
yields `None` and leaves the whole monitor state (both stored was-up
flags included) unchanged. -/
theorem recognize_unrecognized_handle_frame (s : MonitorState)
    (live : Nat → Bool) (n : Nat)
    (h : n = 0 ∨ (n ≠ s.netif4 ∧ n ≠ s.netif6)) :
    recognizeLowerLevelInterfaceStateChange live n s =
      (ZtsEvent.eventNone, s) := by
  rcases h with h | ⟨h4, h6⟩
  · simp [recognizeLowerLevelInterfaceStateChange, h]
  · simp [recognizeLowerLevelInterfaceStateChange, h4, h6]

/-- Witness for `recognize_unrecognized_handle_frame` at a concrete
unrecognized handle. -/
theorem recognize_unrecognized_handle_frame_witness :
    recognizeLowerLevelInterfaceStateChange (fun _ => true) 3
        ⟨1, 2, true, true⟩ =
      (ZtsEvent.eventNone, ⟨1, 2, true, true⟩) :=
  recognize_unrecognized_handle_frame ⟨1, 2, true, true⟩ (fun _ => true) 3
    (Or.inr ⟨by decide, by decide⟩)

/-- C2: evaluating `scanMulticastGroups` where two distinct addresses
derive the same multicast group — here the five addresses
`[2, 3, 4, 5, 6]` with derivation `n / 2`, giving groups
`[1, 1, 2, 2, 3]` — stores `[1, 2, 3, 2, 3]`: the result iterator of
`std::unique` is discarded and nothing is erased, so the committed
`_multicastGroups` is neither duplicate-free nor sorted. -/
theorem scan_stored_corrupted_by_discarded_unique :
    (scanMulticastGroups (fun n => n / 2) [2, 3, 4, 5, 6] [] [] []).stored =
      [1, 2, 3, 2, 3] ∧
    ¬ (scanMulticastGroups (fun n => n / 2) [2, 3, 4, 5, 6] [] [] []).stored.Nodup ∧
    ¬ List.Sorted (· ≤ ·)
      (scanMulticastGroups (fun n => n / 2) [2, 3, 4, 5, 6] [] [] []).stored := by
  refine ⟨by decide, by decide, by decide⟩

/-- C3: for every stored snapshot and every current address set, one
`scanMulticastGroups` call (with empty output vectors) produces `added`
and `removed` with empty intersection, and an immediately repeated call
with the address set unchanged produces both `added` and `removed`
empty.  This holds even though the discarded `std::unique` result can
leave the committed set unsorted and duplicated, because the bisection
of `std::binary_search` still finds every member of such vectors. -/
theorem scan_disjoint_and_repeat_empty (derive : Nat → Nat)
    (allIps stored : List Nat) :
    (∀ x, x ∈ (scanMulticastGroups derive allIps stored [] []).added →
      x ∉ (scanMulticastGroups derive allIps stored [] []).removed) ∧
    (scanMulticastGroups derive allIps
      (scanMulticastGroups derive allIps stored [] []).stored [] []).added = [] ∧
    (scanMulticastGroups derive allIps
      (scanMulticastGroups derive allIps stored [] []).stored [] []).removed = [] := by
  have hsorted : List.Sorted (· ≤ ·)
      (List.insertionSort (· ≤ ·) (allIps.map derive)) :=
    List.sorted_insertionSort _ _
  have hcomp : ∀ x ∈ buggyUnique (List.insertionSort (· ≤ ·) (allIps.map derive)),
      binarySearch (buggyUnique (List.insertionSort (· ≤ ·) (allIps.map derive)))
        x = true :=
    fun x hx => binarySearch_complete_buggyUnique hsorted hx
  refine ⟨?_, ?_, ?_⟩
  · intro x hadd hrem
    simp only [scanMulticastGroups, List.nil_append, List.mem_filter] at hadd hrem
    rw [hcomp x hadd.1] at hrem
    simp at hrem
  · simp only [scanMulticastGroups, List.nil_append]
    rw [List.filter_eq_nil_iff]
    intro a ha
    simp [hcomp a ha]
  · simp only [scanMulticastGroups, List.nil_append]
    rw [List.filter_eq_nil_iff]
    intro a ha
    simp [hcomp a ha]

/-- C8: for every stored snapshot, scanning while the current address
set is empty yields an empty `added` list, a `removed` list equal to the
entire previously stored set, and an empty new stored set. -/
theorem scan_empty_address_set (derive : Nat → Nat) (stored : List Nat) :
    (scanMulticastGroups derive [] stored [] []).added = [] ∧
    (scanMulticastGroups derive [] stored [] []).removed = stored ∧
    (scanMulticastGroups derive [] stored [] []).stored = [] := by
  refine ⟨rfl, ?_, rfl⟩
  simp only [scanMulticastGroups, List.map_nil, List.nil_append]
  exact List.filter_eq_self.mpr (fun a _ => rfl)

/-- C10: `scanMulticastGroups` only ever `push_back`s onto the
caller-supplied output vectors: whatever they contained stays at the
front and the scan results accumulate after it, so the diff semantics
hold only for empty output vectors. -/
theorem scan_appends_to_output_vectors (derive : Nat → Nat)
    (allIps stored added₀ removed₀ : List Nat) :
    (scanMulticastGroups derive allIps stored added₀ removed₀).added =
      added₀ ++ (scanMulticastGroups derive allIps stored [] []).added ∧
    (scanMulticastGroups derive allIps stored added₀ removed₀).removed =
      removed₀ ++ (scanMulticastGroups derive allIps stored [] []).removed ∧
    (scanMulticastGroups derive allIps stored added₀ removed₀).stored =
      (scanMulticastGroups derive allIps stored [] []).stored := by
  refine ⟨?_, ?_, rfl⟩ <;> simp [scanMulticastGroups]

end VirtualTap
